import Mathlib

/-!
Verification development for `gemini_stats_labmda.py`, a report generator
that folds a trade history and a live price snapshot into a per-asset
holding summary and renders it as an HTML table.

Modelling choices (shallow embedding):
* Python decimal strings and floats are modelled as exact rationals `ℚ`;
  `round(x, 2)` is modelled as round-half-to-even at two decimal places,
  the rounding convention documented for Python `round`.
* Python `dict` is modelled as an insertion-ordered association list
  `List (String × α)`: `dictGet` looks a key up, `dictSet` updates an
  existing binding in place or appends a fresh one at the end.
* Python `str.upper` and `str.replace` are modelled character-wise on
  `String.data` (`pyUpper`, `pyReplace`); on the ASCII symbol data this
  program handles they agree with the Python built-ins.
* The network callers (`get_all_trades`, `get_current_asset_prices`) are
  out of scope: the accumulator takes the already-fetched price list and
  order list as arguments, matching the spec, which calls the accumulator
  a pure function of its two inputs.
* A Python exception aborting the run (the `TypeError` raised on line 98
  when `price_dict.get(symbol)` is `None`) is modelled by `Option`:
  `none` is the aborted run.
* The f-string HTML templates are rendered structurally: each template is
  a structure holding exactly the interpolated values (colour, numbers,
  label) in template order, so that claims about the rendered content are
  claims about these fields.
-/

namespace GeminiStats

/-- One record of the public price feed: fields `pair` and `price` of the
JSON objects returned by the pricefeed endpoint, with `price` already
parsed. -/
structure PriceQuote where
  pair : String
  price : ℚ
deriving DecidableEq, Repr

/-- One record of the trade history returned by the mytrades endpoint:
the fields the program reads (`type`, `symbol`, `amount`, `price`),
numeric fields already parsed. -/
structure TradeOrder where
  type : String
  symbol : String
  amount : ℚ
  price : ℚ
deriving DecidableEq, Repr

/-- The per-symbol aggregate record built by `get_crypto_holding_summary`:
the dict literal with keys `amount`, `spent` and `value`, all zero. -/
structure HoldingAggregate where
  amount : ℚ
  spent : ℚ
  value : ℚ
deriving DecidableEq, Repr

/-- Python `d.get(k)`: the value bound to the first (and only) occurrence
of the key in the association list, if any. -/
def dictGet (d : List (String × α)) (k : String) : Option α :=
  match d with
  | [] => none
  | (k1, v1) :: rest => if k1 = k then some v1 else dictGet rest k

/-- Python `d[k] = v`: replace the value of an existing binding in place
(keeping its position), or append a fresh binding at the end. -/
def dictSet (d : List (String × α)) (k : String) (v : α) : List (String × α) :=
  match d with
  | [] => [(k, v)]
  | (k1, v1) :: rest => if k1 = k then (k, v) :: rest else (k1, v1) :: dictSet rest k v

/-- Containment of a character list as a contiguous run of another. -/
def listContains (n : List Char) : List Char → Bool
  | [] => n.isEmpty
  | c :: rest => n.isPrefixOf (c :: rest) || listContains n rest

/-- Python `needle in haystack` on strings: substring containment. -/
def strContains (needle hay : String) : Bool :=
  listContains needle.data hay.data

/-- Python `s.upper()`: uppercase every character. `Char.toUpper` only
maps basic latin letters, which matches Python on the ASCII symbol data
this program handles. -/
def pyUpper (s : String) : String :=
  ⟨s.data.map Char.toUpper⟩

/-- Python `s.replace(pat, rep)` on character lists, for a non-empty
pattern as used on line 120: scan left to right; on a match emit the
replacement and skip the matched characters (the skip counter carries the
remaining matched characters past the current one). -/
def pyReplaceAux (pat rep : List Char) : ℕ → List Char → List Char
  | _, [] => []
  | skip + 1, _ :: rest => pyReplaceAux pat rep skip rest
  | 0, c :: rest =>
    if pat.isPrefixOf (c :: rest) ∧ pat ≠ [] then
      rep ++ pyReplaceAux pat rep (pat.length - 1) rest
    else
      c :: pyReplaceAux pat rep 0 rest

/-- Python `s.replace(pat, rep)` for the non-empty pattern used by the
program: replace every non-overlapping occurrence, left to right. -/
def pyReplace (s pat rep : String) : String :=
  ⟨pyReplaceAux pat.data rep.data 0 s.data⟩

/-- Round a rational to the nearest integer, ties to even (the convention
of Python `round` on an exact half). -/
def roundHalfEven (q : ℚ) : ℤ :=
  let f := ⌊q⌋
  let r := q - (f : ℚ)
  if r < 1 / 2 then f
  else if 1 / 2 < r then f + 1
  else if f % 2 = 0 then f else f + 1

/-- Python `round(q, 2)`. -/
def round2 (q : ℚ) : ℚ :=
  (roundHalfEven (q * 100) : ℚ) / 100

/-- Line 79: `convert_price_list_to_dict`, folding the feed into a
pair-to-price dict. -/
def convert_price_list_to_dict (price_list : List PriceQuote) : List (String × ℚ) :=
  go [] price_list
where
  /-- The loop of `convert_price_list_to_dict`, carrying the dict built
  so far. -/
  go (price_dict : List (String × ℚ)) : List PriceQuote → List (String × ℚ)
  | [] => price_dict
  | symbol_group :: rest => go (dictSet price_dict symbol_group.pair symbol_group.price) rest

/-- Lines 90-98: the loop body of `get_crypto_holding_summary` for a
single order. `none` models the `TypeError` raised on line 98 when the
price lookup returns `None`; the partial dict mutations before it are
unobservable because the exception aborts the whole run. -/
def processOrder (price_dict : List (String × ℚ)) (acc : List (String × HoldingAggregate))
    (order : TradeOrder) : Option (List (String × HoldingAggregate)) :=
  if order.type = "Buy" then
    let symbol := pyUpper order.symbol
    if strContains "GUSD" symbol then some acc  -- Skip GUSD
    else
      let amount := order.amount
      let spent := round2 (order.price * amount)
      let cur := (dictGet acc symbol).getD ⟨0, 0, 0⟩
      let amount1 := cur.amount + amount
      let spent1 := cur.spent + spent
      match dictGet price_dict symbol with
      | none => none
      | some p => some (dictSet acc symbol ⟨amount1, spent1, amount1 * p⟩)
  else some acc

/-- The `for order in ...` loop of lines 89-98, threading the dict of
aggregates and propagating an aborted run. -/
def runOrders (price_dict : List (String × ℚ)) (acc : List (String × HoldingAggregate)) :
    List TradeOrder → Option (List (String × HoldingAggregate))
  | [] => some acc
  | order :: rest =>
    match processOrder price_dict acc order with
    | none => none
    | some acc1 => runOrders price_dict acc1 rest

/-- Lines 86-99: `get_crypto_holding_summary`, taking the fetched price
feed and trade history as inputs. -/
def get_crypto_holding_summary (price_list : List PriceQuote) (orders : List TradeOrder) :
    Option (List (String × HoldingAggregate)) :=
  runOrders (convert_price_list_to_dict price_list) [] orders

/-- The rendered delta cell of lines 102-107: the bold tag holding the
interpolated colour and the rounded difference of value and spent. -/
structure DeltaCell where
  color : String
  delta : ℚ
deriving DecidableEq, Repr

/-- Lines 102-107: `generate_toke_color`. -/
def generate_toke_color (spent value : ℚ) : DeltaCell :=
  let color := if spent < value then "green" else "red"
  ⟨color, round2 (value - spent)⟩

/-- One rendered table row of the report: the interpolated label, delta
cell and rounded spent and value columns, in template order. -/
structure TokenRow where
  label : String
  delta : DeltaCell
  spent : ℚ
  value : ℚ
deriving DecidableEq, Repr

/-- The output of `generate_token_rows`: the per-symbol rows in iteration
order followed by the trailing TOTAL row. -/
structure TokenRows where
  rows : List TokenRow
  total : TokenRow
deriving DecidableEq, Repr

/-- The loop body of lines 114-120: append the rendered row of one
summary entry and add its spent and value into the running totals. The
source also reads the `amount` field of the entry but never uses it. -/
def tokenRowStep (st : List TokenRow × ℚ × ℚ) (kv : String × HoldingAggregate) :
    List TokenRow × ℚ × ℚ :=
  let spent := kv.2.spent
  let value := kv.2.value
  (st.1 ++ [⟨pyReplace kv.1 "USD" "", generate_toke_color spent value,
             round2 spent, round2 value⟩],
   st.2.1 + spent, st.2.2 + value)

/-- Lines 110-122: `generate_token_rows`, folding the summary into rows
while accumulating `total_spent` and `total_value`, then appending the
TOTAL row. -/
def generate_token_rows (crypto_summary_dict : List (String × HoldingAggregate)) : TokenRows :=
  let st := crypto_summary_dict.foldl tokenRowStep ([], 0, 0)
  ⟨st.1, ⟨"TOTAL", generate_toke_color st.2.1 st.2.2, round2 st.2.1, round2 st.2.2⟩⟩

/-- The final HTML of `generate_html`: the style block, the header row and
the token rows, in template order. -/
structure ReportHtml where
  style : String
  table_header : String
  token_rows : TokenRows
deriving DecidableEq, Repr

/-- Lines 124-129: `generate_html`. The literal brace characters of the
style block are written with their escapes. -/
def generate_html (crypto_summary_dict : List (String × HoldingAggregate)) : ReportHtml :=
  let style := "<style> td \x7b text-align: center; vertical-align: middle; \x7d</style>"
  let table_header := "<tr> <th>Symbol</th> <th>Delta</th> <th>Spent</th> <th>Value</th> </tr>"
  ⟨style, table_header, generate_token_rows crypto_summary_dict⟩

/-- The pure per-symbol accumulation step of lines 93-98, at a fixed
current price: add the amount, add the rounded per-order cost, recompute
the value from the new running amount. -/
def aggStep (p : ℚ) (cur : HoldingAggregate) (o : TradeOrder) : HoldingAggregate :=
  ⟨cur.amount + o.amount, cur.spent + round2 (o.price * o.amount), (cur.amount + o.amount) * p⟩

/-- Whether an order contributes to the aggregate of key `S`: it is a Buy,
its uppercased symbol is `S`, and that symbol is not GUSD-excluded. -/
def contributesTo (S : String) (o : TradeOrder) : Bool :=
  o.type == "Buy" && pyUpper o.symbol == S && !strContains "GUSD" (pyUpper o.symbol)

/-- The subsequence of orders contributing to the aggregate of key `S`. -/
def contrib (S : String) (orders : List TradeOrder) : List TradeOrder :=
  orders.filter (contributesTo S)

/-! ### Rounding helpers -/

theorem roundHalfEven_eq_of_floor (q : ℚ) (f : ℤ) (hf : ⌊q⌋ = f) :
    roundHalfEven q =
      if q - (f : ℚ) < 1 / 2 then f
      else if 1 / 2 < q - (f : ℚ) then f + 1
      else if f % 2 = 0 then f else f + 1 := by
  unfold roundHalfEven
  rw [hf]

theorem roundHalfEven_intCast (n : ℤ) : roundHalfEven (n : ℚ) = n := by
  rw [roundHalfEven_eq_of_floor (n : ℚ) n (Int.floor_intCast n)]
  norm_num

theorem round2_eq_of_int_mul (q : ℚ) (n : ℤ) (h : q * 100 = (n : ℚ)) : round2 q = q := by
  unfold round2
  rw [h, roundHalfEven_intCast, div_eq_iff (by norm_num : (100 : ℚ) ≠ 0), h]

theorem round2_eq_self (q : ℚ) (n : ℤ) (h : q = (n : ℚ)) : round2 q = q := by
  refine round2_eq_of_int_mul q (n * 100) ?_
  rw [h, Int.cast_mul]
  norm_num

theorem round2_eq_of_half (q : ℚ) (n : ℤ) (h : q * 100 = (n : ℚ) + 1 / 2) :
    round2 q = ((if n % 2 = 0 then n else n + 1 : ℤ) : ℚ) / 100 := by
  unfold round2
  rw [h]
  have hf : ⌊(n : ℚ) + 1 / 2⌋ = n := by
    rw [Int.floor_eq_iff]
    constructor
    · linarith
    · linarith
  rw [roundHalfEven_eq_of_floor _ n hf]
  have h1 : (n : ℚ) + 1 / 2 - (n : ℚ) = 1 / 2 := by ring
  rw [h1]
  norm_num

/-! ### Dict lemmas -/

theorem dictGet_dictSet_self (d : List (String × α)) (k : String) (v : α) :
    dictGet (dictSet d k v) k = some v := by
  induction d with
  | nil => simp [dictGet, dictSet]
  | cons kv rest ih =>
    obtain ⟨k1, v1⟩ := kv
    by_cases h : k1 = k
    · simp [dictSet, h, dictGet]
    · simp [dictSet, h, dictGet, ih]

theorem dictGet_dictSet_ne (d : List (String × α)) (k k' : String) (v : α) (h : k ≠ k') :
    dictGet (dictSet d k v) k' = dictGet d k' := by
  induction d with
  | nil => simp [dictGet, dictSet, h]
  | cons kv rest ih =>
    obtain ⟨k1, v1⟩ := kv
    by_cases h1 : k1 = k
    · subst h1
      simp [dictSet, dictGet, h]
    · simp [dictSet, h1, dictGet, ih]

theorem isSome_dictGet_of_mem (d : List (String × α)) (k : String) (v : α)
    (h : (k, v) ∈ d) : (dictGet d k).isSome := by
  induction d with
  | nil => simp at h
  | cons kv rest ih =>
    obtain ⟨k1, v1⟩ := kv
    rcases List.mem_cons.mp h with h1 | h1
    · rw [Prod.mk.injEq] at h1
      obtain ⟨hk, hv⟩ := h1
      subst hk
      simp [dictGet]
    · by_cases hk : k1 = k
      · simp [dictGet, hk]
      · simp only [dictGet, hk, if_false]
        exact ih h1

theorem mem_dictSet (d : List (String × α)) (k : String) (v : α) :
    ∀ kv ∈ dictSet d k v, kv.1 = k ∨ kv ∈ d := by
  induction d with
  | nil =>
    intro kv hkv
    simp [dictSet] at hkv
    subst hkv
    exact Or.inl rfl
  | cons kv1 rest ih =>
    intro kv hkv
    obtain ⟨k1, v1⟩ := kv1
    by_cases h1 : k1 = k
    · simp only [dictSet, h1, if_true] at hkv
      rcases List.mem_cons.mp hkv with h | h
      · exact Or.inl (by rw [h])
      · exact Or.inr (List.mem_cons_of_mem _ h)
    · simp only [dictSet, h1, if_false] at hkv
      rcases List.mem_cons.mp hkv with h | h
      · exact Or.inr (by rw [h]; exact List.mem_cons_self _ _)
      · rcases ih kv h with h2 | h2
        · exact Or.inl h2
        · exact Or.inr (List.mem_cons_of_mem _ h2)

/-! ### Loop-body case analysis -/

theorem processOrder_not_buy (pd : List (String × ℚ)) (acc : List (String × HoldingAggregate))
    (o : TradeOrder) (h : o.type ≠ "Buy") : processOrder pd acc o = some acc := by
  simp [processOrder, h]

theorem processOrder_gusd (pd : List (String × ℚ)) (acc : List (String × HoldingAggregate))
    (o : TradeOrder) (h : strContains "GUSD" (pyUpper o.symbol) = true) :
    processOrder pd acc o = some acc := by
  by_cases hb : o.type = "Buy"
  · simp [processOrder, hb, h]
  · simp [processOrder, hb]

theorem processOrder_buy (pd : List (String × ℚ)) (acc : List (String × HoldingAggregate))
    (o : TradeOrder) (hb : o.type = "Buy")
    (hg : strContains "GUSD" (pyUpper o.symbol) = false) :
    processOrder pd acc o = (dictGet pd (pyUpper o.symbol)).map (fun p =>
      dictSet acc (pyUpper o.symbol)
        (aggStep p ((dictGet acc (pyUpper o.symbol)).getD ⟨0, 0, 0⟩) o)) := by
  simp only [processOrder, hb, if_true, hg, Bool.false_eq_true, if_false]
  cases dictGet pd (pyUpper o.symbol) <;> simp [aggStep]

theorem contributesTo_iff (S : String) (o : TradeOrder) :
    contributesTo S o = true ↔
      o.type = "Buy" ∧ pyUpper o.symbol = S ∧ strContains "GUSD" (pyUpper o.symbol) = false := by
  simp [contributesTo, Bool.and_eq_true, beq_iff_eq, Bool.not_eq_true', and_assoc]

theorem contrib_cons_true (S : String) (o : TradeOrder) (l : List TradeOrder)
    (h : contributesTo S o = true) : contrib S (o :: l) = o :: contrib S l := by
  simp [contrib, List.filter, h]

theorem contrib_cons_false (S : String) (o : TradeOrder) (l : List TradeOrder)
    (h : contributesTo S o = false) : contrib S (o :: l) = contrib S l := by
  simp [contrib, List.filter, h]

/-! ### The per-symbol accumulation, as a pure fold -/

theorem foldl_aggStep_amount (p : ℚ) (l : List TradeOrder) :
    ∀ z : HoldingAggregate,
      (l.foldl (aggStep p) z).amount = z.amount + (l.map TradeOrder.amount).sum := by
  induction l with
  | nil => intro z; simp
  | cons o l ih =>
    intro z
    simp only [List.foldl_cons, List.map_cons, List.sum_cons, ih, aggStep]
    ring

theorem foldl_aggStep_spent (p : ℚ) (l : List TradeOrder) :
    ∀ z : HoldingAggregate,
      (l.foldl (aggStep p) z).spent =
        z.spent + (l.map (fun o => round2 (o.price * o.amount))).sum := by
  induction l with
  | nil => intro z; simp
  | cons o l ih =>
    intro z
    simp only [List.foldl_cons, List.map_cons, List.sum_cons, ih, aggStep]
    ring

theorem foldl_aggStep_value (p : ℚ) (l : List TradeOrder) :
    ∀ z : HoldingAggregate, l ≠ [] →
      (l.foldl (aggStep p) z).value = (l.foldl (aggStep p) z).amount * p := by
  induction l with
  | nil => intro z h; exact absurd rfl h
  | cons o l ih =>
    intro z _
    by_cases hl : l = []
    · subst hl
      simp [aggStep]
    · simp only [List.foldl_cons]
      exact ih (aggStep p z o) hl

/-! ### Characterization of the whole order loop -/

theorem runOrders_some_char (pd : List (String × ℚ)) (orders : List TradeOrder) :
    ∀ (acc d : List (String × HoldingAggregate)),
      runOrders pd acc orders = some d →
      ∀ S : String,
        (contrib S orders = [] → dictGet d S = dictGet acc S) ∧
        (contrib S orders ≠ [] →
          ∃ p, dictGet pd S = some p ∧
            dictGet d S =
              some ((contrib S orders).foldl (aggStep p) ((dictGet acc S).getD ⟨0, 0, 0⟩))) := by
  induction orders with
  | nil =>
    intro acc d h S
    simp only [runOrders, Option.some.injEq] at h
    subst h
    exact ⟨fun _ => rfl, fun hc => absurd rfl hc⟩
  | cons o rest ih =>
    intro acc d h S
    by_cases hb : o.type = "Buy"
    · cases hgb : strContains "GUSD" (pyUpper o.symbol) with
      | true =>
        have hstep := processOrder_gusd pd acc o hgb
        simp only [runOrders, hstep] at h
        have hco : contributesTo S o = false := by
          simp [contributesTo, hgb]
        rw [contrib_cons_false _ _ _ hco]
        exact ih acc d h S
      | false =>
        set S0 := pyUpper o.symbol with hS0
        cases hpd : dictGet pd S0 with
        | none =>
          rw [runOrders, processOrder_buy pd acc o hb hgb] at h
          rw [hS0] at hpd
          rw [hpd] at h
          simp at h
        | some p0 =>
          rw [runOrders, processOrder_buy pd acc o hb hgb] at h
          rw [hS0] at hpd
          rw [hpd] at h
          simp only [Option.map_some'] at h
          have IH := ih (dictSet acc S0 (aggStep p0 ((dictGet acc S0).getD ⟨0, 0, 0⟩) o)) d h
          by_cases hS : S0 = S
          · subst hS
            have hco : contributesTo S0 o = true :=
              (contributesTo_iff S0 o).mpr ⟨hb, hS0.symm, hgb⟩
            rw [contrib_cons_true _ _ _ hco]
            refine ⟨fun hc => absurd hc (List.cons_ne_nil _ _), fun _ => ?_⟩
            by_cases hcr : contrib S0 rest = []
            · have h1 := (IH S0).1 hcr
              rw [dictGet_dictSet_self] at h1
              refine ⟨p0, hpd, ?_⟩
              rw [hcr, h1]
              simp
            · obtain ⟨p, hp, hd⟩ := (IH S0).2 hcr
              have hpp : p = p0 := by
                rw [hpd] at hp
                exact (Option.some.inj hp).symm
              subst hpp
              refine ⟨p, hp, ?_⟩
              rw [dictGet_dictSet_self] at hd
              simp only [Option.getD_some] at hd
              rw [hd, List.foldl_cons]
          · have hco : contributesTo S o = false := by
              refine Bool.eq_false_iff.mpr (fun hc => hS ?_)
              exact ((contributesTo_iff S o).mp hc).2.1
            rw [contrib_cons_false _ _ _ hco]
            have hacc : ∀ T, dictGet (dictSet acc S0 T) S = dictGet acc S :=
              fun T => dictGet_dictSet_ne acc S0 S T hS
            refine ⟨fun hc => ?_, fun hc => ?_⟩
            · rw [(IH S).1 hc, hacc]
            · obtain ⟨p, hp, hd⟩ := (IH S).2 hc
              exact ⟨p, hp, by rw [hd, hacc]⟩
    · have hstep := processOrder_not_buy pd acc o hb
      simp only [runOrders, hstep] at h
      have hco : contributesTo S o = false := by
        simp [contributesTo, hb]
      rw [contrib_cons_false _ _ _ hco]
      exact ih acc d h S

theorem runOrders_none_of_missing (pd : List (String × ℚ)) (o : TradeOrder)
    (hb : o.type = "Buy") (hg : strContains "GUSD" (pyUpper o.symbol) = false)
    (hm : dictGet pd (pyUpper o.symbol) = none) :
    ∀ (orders : List TradeOrder) (acc : List (String × HoldingAggregate)),
      o ∈ orders → runOrders pd acc orders = none := by
  intro orders
  induction orders with
  | nil => intro acc h; simp at h
  | cons o1 rest ih =>
    intro acc h
    rcases List.mem_cons.mp h with h1 | h1
    · subst h1
      rw [runOrders, processOrder_buy pd acc o hb hg, hm]
      rfl
    · cases hstep : processOrder pd acc o1 with
      | none => simp only [runOrders, hstep]
      | some acc1 =>
        simp only [runOrders, hstep]
        exact ih acc1 h1

theorem runOrders_all_skip (pd : List (String × ℚ)) :
    ∀ (orders : List TradeOrder) (acc : List (String × HoldingAggregate)),
      (∀ o ∈ orders, o.type ≠ "Buy") → runOrders pd acc orders = some acc := by
  intro orders
  induction orders with
  | nil => intro acc _; rfl
  | cons o rest ih =>
    intro acc h
    have hstep := processOrder_not_buy pd acc o (h o (List.mem_cons_self o rest))
    simp only [runOrders, hstep]
    exact ih acc (fun o1 ho1 => h o1 (List.mem_cons_of_mem _ ho1))

theorem runOrders_filter_buy (pd : List (String × ℚ)) :
    ∀ (orders : List TradeOrder) (acc : List (String × HoldingAggregate)),
      runOrders pd acc orders = runOrders pd acc (orders.filter fun o => o.type == "Buy") := by
  intro orders
  induction orders with
  | nil => intro acc; rfl
  | cons o rest ih =>
    intro acc
    by_cases hb : o.type = "Buy"
    · have hf : (o :: rest).filter (fun o => o.type == "Buy") =
          o :: rest.filter (fun o => o.type == "Buy") := by
        simp [List.filter_cons, hb]
      rw [hf]
      simp only [runOrders]
      cases hstep : processOrder pd acc o with
      | none => rfl
      | some acc1 => exact ih acc1
    · have hf : (o :: rest).filter (fun o => o.type == "Buy") =
          rest.filter (fun o => o.type == "Buy") := by
        simp [List.filter_cons, hb]
      rw [hf]
      simp only [runOrders, processOrder_not_buy pd acc o hb]
      exact ih acc

theorem runOrders_filter_gusd (pd : List (String × ℚ)) :
    ∀ (orders : List TradeOrder) (acc : List (String × HoldingAggregate)),
      runOrders pd acc orders =
        runOrders pd acc (orders.filter fun o => !strContains "GUSD" (pyUpper o.symbol)) := by
  intro orders
  induction orders with
  | nil => intro acc; rfl
  | cons o rest ih =>
    intro acc
    cases hgb : strContains "GUSD" (pyUpper o.symbol) with
    | true =>
      have hf : (o :: rest).filter (fun o => !strContains "GUSD" (pyUpper o.symbol)) =
          rest.filter (fun o => !strContains "GUSD" (pyUpper o.symbol)) := by
        simp [List.filter_cons, hgb]
      rw [hf]
      simp only [runOrders, processOrder_gusd pd acc o hgb]
      exact ih acc
    | false =>
      have hf : (o :: rest).filter (fun o => !strContains "GUSD" (pyUpper o.symbol)) =
          o :: rest.filter (fun o => !strContains "GUSD" (pyUpper o.symbol)) := by
        simp [List.filter_cons, hgb]
      rw [hf]
      simp only [runOrders]
      cases hstep : processOrder pd acc o with
      | none => rfl
      | some acc1 => exact ih acc1

theorem runOrders_key_invariant (pd : List (String × ℚ)) (P : String → Prop) :
    ∀ (orders : List TradeOrder) (acc d : List (String × HoldingAggregate)),
      runOrders pd acc orders = some d →
      (∀ kv ∈ acc, P kv.1) →
      (∀ o ∈ orders, o.type = "Buy" → strContains "GUSD" (pyUpper o.symbol) = false →
        P (pyUpper o.symbol)) →
      ∀ kv ∈ d, P kv.1 := by
  intro orders
  induction orders with
  | nil =>
    intro acc d h hacc _
    simp only [runOrders, Option.some.injEq] at h
    subst h
    exact hacc
  | cons o rest ih =>
    intro acc d h hacc hP
    by_cases hb : o.type = "Buy"
    · cases hgb : strContains "GUSD" (pyUpper o.symbol) with
      | true =>
        simp only [runOrders, processOrder_gusd pd acc o hgb] at h
        exact ih acc d h hacc (fun o1 ho1 => hP o1 (List.mem_cons_of_mem _ ho1))
      | false =>
        cases hpd : dictGet pd (pyUpper o.symbol) with
        | none =>
          rw [runOrders, processOrder_buy pd acc o hb hgb, hpd] at h
          simp at h
        | some p0 =>
          rw [runOrders, processOrder_buy pd acc o hb hgb, hpd] at h
          simp only [Option.map_some'] at h
          refine ih _ d h ?_ (fun o1 ho1 => hP o1 (List.mem_cons_of_mem _ ho1))
          intro kv hkv
          rcases mem_dictSet _ _ _ kv hkv with h1 | h1
          · rw [h1]
            exact hP o (List.mem_cons_self o rest) hb hgb
          · exact hacc kv h1
    · simp only [runOrders, processOrder_not_buy pd acc o hb] at h
      exact ih acc d h hacc (fun o1 ho1 => hP o1 (List.mem_cons_of_mem _ ho1))

theorem processOrder_congr (pd : List (String × ℚ)) (acc : List (String × HoldingAggregate))
    (o o1 : TradeOrder) (h1 : o.type = o1.type) (h2 : pyUpper o.symbol = pyUpper o1.symbol)
    (h3 : o.amount = o1.amount) (h4 : o.price = o1.price) :
    processOrder pd acc o = processOrder pd acc o1 := by
  unfold processOrder
  rw [h1, h2, h3, h4]

theorem runOrders_congr_orders (pd : List (String × ℚ)) (orders orders' : List TradeOrder)
    (hrel : List.Forall₂ (fun o o1 : TradeOrder =>
      o.type = o1.type ∧ pyUpper o.symbol = pyUpper o1.symbol ∧
      o.amount = o1.amount ∧ o.price = o1.price) orders orders') :
    ∀ acc, runOrders pd acc orders = runOrders pd acc orders' := by
  induction hrel with
  | nil => intro acc; rfl
  | cons h hrest ih =>
    intro acc
    obtain ⟨e1, e2, e3, e4⟩ := h
    have hstep := processOrder_congr pd acc _ _ e1 e2 e3 e4
    simp only [runOrders, hstep]
    cases hres : processOrder pd acc _ with
    | none => rfl
    | some acc1 => exact ih acc1

theorem runOrders_price_agree (pd1 pd2 : List (String × ℚ)) :
    ∀ (orders : List TradeOrder) (acc : List (String × HoldingAggregate)),
      (∀ o ∈ orders, dictGet pd1 (pyUpper o.symbol) = dictGet pd2 (pyUpper o.symbol)) →
      runOrders pd1 acc orders = runOrders pd2 acc orders := by
  intro orders
  induction orders with
  | nil => intro acc _; rfl
  | cons o rest ih =>
    intro acc h
    have hstep : processOrder pd1 acc o = processOrder pd2 acc o := by
      simp only [processOrder]
      rw [h o (List.mem_cons_self o rest)]
    simp only [runOrders, hstep]
    cases hres : processOrder pd2 acc o with
    | none => rfl
    | some acc1 => exact ih acc1 (fun o1 ho1 => h o1 (List.mem_cons_of_mem _ ho1))

/-! ### Characterization of the price-dict construction -/

theorem convert_go_char (l : List PriceQuote) :
    ∀ (d : List (String × ℚ)) (p : String),
      dictGet (convert_price_list_to_dict.go d l) p =
        if (l.filter fun q => q.pair == p) = [] then dictGet d p
        else ((l.filter fun q => q.pair == p).getLast?).map PriceQuote.price := by
  induction l with
  | nil => intro d p; simp [convert_price_list_to_dict.go]
  | cons q l ih =>
    intro d p
    by_cases hq : q.pair = p
    · have hf : (q :: l).filter (fun q => q.pair == p) =
          q :: l.filter (fun q => q.pair == p) := by
        simp [List.filter_cons, hq]
      rw [convert_price_list_to_dict.go, ih, hf]
      by_cases hfl : (l.filter fun q => q.pair == p) = []
      · rw [if_pos hfl, hfl, if_neg (List.cons_ne_nil _ _), hq, dictGet_dictSet_self]
        simp
      · rw [if_neg hfl, if_neg (List.cons_ne_nil _ _)]
        obtain ⟨b, l', hbl⟩ := List.exists_cons_of_ne_nil hfl
        rw [hbl, List.getLast?_cons_cons]
    · have hf : (q :: l).filter (fun q => q.pair == p) = l.filter (fun q => q.pair == p) := by
        simp [List.filter_cons, hq]
      rw [convert_price_list_to_dict.go, ih, hf, dictGet_dictSet_ne _ _ _ _ hq]

/-! ### Characterization of the row rendering -/

theorem foldl_tokenRowStep_rows (l : List (String × HoldingAggregate)) :
    ∀ init : List TokenRow × ℚ × ℚ,
      (l.foldl tokenRowStep init).1 =
        init.1 ++ l.map (fun kv =>
          ⟨pyReplace kv.1 "USD" "", generate_toke_color kv.2.spent kv.2.value,
           round2 kv.2.spent, round2 kv.2.value⟩) := by
  induction l with
  | nil => intro init; simp
  | cons kv l ih =>
    intro init
    simp only [List.foldl_cons, List.map_cons, ih, tokenRowStep]
    simp

/-! ### The claims -/

/-- C1: for every successful run, each aggregate of the holding summary
satisfies `value == amount * price_lookup[S]`, with `amount` the exact sum
of the contributing orders' amounts: `value` is recomputed from the
running amount total at each step, so after the fold it reflects the full
cumulative amount at the current price. -/
theorem value_recomputed_from_running_total
    (prices : List PriceQuote) (orders : List TradeOrder)
    (d : List (String × HoldingAggregate)) (S : String) (agg : HoldingAggregate)
    (hrun : get_crypto_holding_summary prices orders = some d)
    (hS : dictGet d S = some agg) :
    ∃ p, dictGet (convert_price_list_to_dict prices) S = some p ∧
      agg.value = agg.amount * p ∧
      agg.amount = ((contrib S orders).map TradeOrder.amount).sum := by
  have hrun' : runOrders (convert_price_list_to_dict prices) [] orders = some d := hrun
  have hchar := runOrders_some_char (convert_price_list_to_dict prices) orders [] d hrun' S
  by_cases hc : contrib S orders = []
  · rw [hchar.1 hc] at hS
    simp [dictGet] at hS
  · obtain ⟨p, hp, hd⟩ := hchar.2 hc
    rw [hS] at hd
    have hagg := Option.some.inj hd
    refine ⟨p, hp, ?_, ?_⟩
    · rw [hagg]
      exact foldl_aggStep_value p _ _ hc
    · rw [hagg, foldl_aggStep_amount]
      simp [dictGet]

/-- C1 witness: one Buy of 1 unit at price 3 with quoted price 2. -/
theorem value_recomputed_witness :
    ∃ p, dictGet (convert_price_list_to_dict [⟨"AUSD", 2⟩]) "AUSD" = some p ∧
      (HoldingAggregate.mk (0 + 1) (0 + round2 (3 * 1)) ((0 + 1) * 2)).value =
        (HoldingAggregate.mk (0 + 1) (0 + round2 (3 * 1)) ((0 + 1) * 2)).amount * p ∧
      (HoldingAggregate.mk (0 + 1) (0 + round2 (3 * 1)) ((0 + 1) * 2)).amount =
        ((contrib "AUSD" [⟨"Buy", "AUSD", 1, 3⟩]).map TradeOrder.amount).sum :=
  value_recomputed_from_running_total [⟨"AUSD", 2⟩] [⟨"Buy", "AUSD", 1, 3⟩]
    [("AUSD", ⟨0 + 1, 0 + round2 (3 * 1), (0 + 1) * 2⟩)] "AUSD"
    ⟨0 + 1, 0 + round2 (3 * 1), (0 + 1) * 2⟩ rfl rfl

/-- C2: the `spent` field of every aggregate is the sum of the per-order
costs rounded to 2 decimals before being added; and there is an input on
which this differs from rounding the total of the unrounded per-order
costs (two orders costing 0.015 each: per-order rounding gives 0.04, the
rounded total gives 0.03). -/
theorem spent_accumulates_rounded_costs :
    (∀ (prices : List PriceQuote) (orders : List TradeOrder)
       (d : List (String × HoldingAggregate)) (S : String) (agg : HoldingAggregate),
       get_crypto_holding_summary prices orders = some d →
       dictGet d S = some agg →
       agg.spent = ((contrib S orders).map (fun o => round2 (o.price * o.amount))).sum) ∧
    (get_crypto_holding_summary [⟨"AUSD", 1⟩]
        [⟨"Buy", "AUSD", 1, 3/200⟩, ⟨"Buy", "AUSD", 1, 3/200⟩] =
      some [("AUSD",
        ⟨0 + 1 + 1, 0 + round2 (3/200 * 1) + round2 (3/200 * 1), (0 + 1 + 1) * 1⟩)] ∧
     (0 : ℚ) + round2 (3/200 * 1) + round2 (3/200 * 1) ≠ round2 (3/200 * 1 + 3/200 * 1)) := by
  constructor
  · intro prices orders d S agg hrun hS
    have hrun' : runOrders (convert_price_list_to_dict prices) [] orders = some d := hrun
    have hchar := runOrders_some_char (convert_price_list_to_dict prices) orders [] d hrun' S
    by_cases hc : contrib S orders = []
    · rw [hchar.1 hc] at hS
      simp [dictGet] at hS
    · obtain ⟨p, hp, hd⟩ := hchar.2 hc
      rw [hS] at hd
      have hagg := Option.some.inj hd
      rw [hagg, foldl_aggStep_spent]
      simp [dictGet]
  · refine ⟨rfl, ?_⟩
    rw [round2_eq_of_half ((3 : ℚ)/200 * 1) 1 (by norm_num),
        round2_eq_of_int_mul ((3 : ℚ)/200 * 1 + 3/200 * 1) 3 (by norm_num)]
    norm_num

/-- C2 witness: a single Buy of 1 unit at price 0.015. -/
theorem spent_accumulates_witness :
    (HoldingAggregate.mk (0 + 1) (0 + round2 (3/200 * 1)) ((0 + 1) * 1)).spent =
      ((contrib "AUSD" [⟨"Buy", "AUSD", 1, 3/200⟩]).map
        (fun o => round2 (o.price * o.amount))).sum :=
  spent_accumulates_rounded_costs.1 [⟨"AUSD", 1⟩] [⟨"Buy", "AUSD", 1, 3/200⟩]
    [("AUSD", ⟨0 + 1, 0 + round2 (3/200 * 1), (0 + 1) * 1⟩)] "AUSD"
    ⟨0 + 1, 0 + round2 (3/200 * 1), (0 + 1) * 1⟩ rfl rfl

/-- C3 counterexample: a Buy order whose symbol has no entry in the price
lookup need not abort the run. Left: a GUSD symbol with an empty price
lookup is skipped and the run succeeds. Right: the symbol btcusd has no
entry itself, but the lookup is made under the uppercased symbol, which
does have one, so the run also succeeds. -/
theorem missing_price_claim_counterexample :
    get_crypto_holding_summary [] [⟨"Buy", "GUSD", 1, 1⟩] = some [] ∧
    get_crypto_holding_summary [⟨"BTCUSD", 5⟩] [⟨"Buy", "btcusd", 1, 1⟩] =
      some [("BTCUSD", ⟨0 + 1, 0 + round2 (1 * 1), (0 + 1) * 5⟩)] :=
  ⟨rfl, rfl⟩

/-- C3 (amended): for every order sequence containing a Buy order whose
uppercased symbol does not contain GUSD and whose uppercased symbol has no
entry in the price lookup, the aggregation fails, aborting the whole run,
rather than skipping that order or substituting a default price. -/
theorem missing_price_aborts_run
    (prices : List PriceQuote) (orders : List TradeOrder) (o : TradeOrder)
    (ho : o ∈ orders) (hb : o.type = "Buy")
    (hg : strContains "GUSD" (pyUpper o.symbol) = false)
    (hm : dictGet (convert_price_list_to_dict prices) (pyUpper o.symbol) = none) :
    get_crypto_holding_summary prices orders = none :=
  runOrders_none_of_missing (convert_price_list_to_dict prices) o hb hg hm orders [] ho

/-- C3 witness: a Buy of ZZZUSD with an empty price feed. -/
theorem missing_price_aborts_witness :
    get_crypto_holding_summary [] [⟨"Buy", "ZZZUSD", 1, 1⟩] = none :=
  missing_price_aborts_run [] [⟨"Buy", "ZZZUSD", 1, 1⟩] ⟨"Buy", "ZZZUSD", 1, 1⟩
    (List.mem_singleton_self _) rfl rfl rfl

/-- C4: a sequence of only non-Buy orders yields the empty holding
summary, and more generally orders whose type is not Buy never contribute:
dropping them does not change the result. -/
theorem non_buy_orders_never_contribute :
    ∀ (prices : List PriceQuote) (orders : List TradeOrder),
      ((∀ o ∈ orders, o.type ≠ "Buy") → get_crypto_holding_summary prices orders = some []) ∧
      get_crypto_holding_summary prices orders =
        get_crypto_holding_summary prices (orders.filter fun o => o.type == "Buy") := by
  intro prices orders
  constructor
  · intro h
    exact runOrders_all_skip (convert_price_list_to_dict prices) orders [] h
  · exact runOrders_filter_buy (convert_price_list_to_dict prices) orders []

/-- C4 witness: a single Sell order. -/
theorem non_buy_witness :
    get_crypto_holding_summary [⟨"BTCUSD", 5⟩] [⟨"Sell", "BTCUSD", 1, 1⟩] = some [] :=
  (non_buy_orders_never_contribute [⟨"BTCUSD", 5⟩] [⟨"Sell", "BTCUSD", 1, 1⟩]).1 (by decide)

/-- C5: the end-to-end example: one Buy of 0.1 BTCUSD at 48000 with a
quote of 50000 yields the expected holding summary, and the rendered TOTAL
row shows delta 200 in green. -/
theorem end_to_end_btc_example :
    get_crypto_holding_summary [⟨"BTCUSD", 50000⟩] [⟨"Buy", "BTCUSD", 1/10, 48000⟩] =
      some [("BTCUSD", ⟨1/10, 4800, 5000⟩)] ∧
    (generate_html [("BTCUSD", ⟨1/10, 4800, 5000⟩)]).token_rows.total =
      ⟨"TOTAL", ⟨"green", 200⟩, 4800, 5000⟩ := by
  constructor
  · have h : get_crypto_holding_summary [⟨"BTCUSD", 50000⟩] [⟨"Buy", "BTCUSD", 1/10, 48000⟩] =
        some [("BTCUSD", ⟨0 + 1/10, 0 + round2 (48000 * (1/10)), (0 + 1/10) * 50000⟩)] := rfl
    rw [h, round2_eq_self ((48000 : ℚ) * (1/10)) 4800 (by norm_num)]
    norm_num
  · have h : (generate_html [("BTCUSD", ⟨1/10, 4800, 5000⟩)]).token_rows.total =
        ⟨"TOTAL", generate_toke_color (0 + 4800) (0 + 5000),
         round2 (0 + 4800), round2 (0 + 5000)⟩ := rfl
    rw [h]
    have hc : generate_toke_color (0 + 4800 : ℚ) (0 + 5000 : ℚ) = ⟨"green", 200⟩ := by
      simp only [generate_toke_color]
      rw [if_pos (by norm_num : (0 + 4800 : ℚ) < 0 + 5000),
          round2_eq_self ((0 + 5000 : ℚ) - (0 + 4800)) 200 (by norm_num)]
      norm_num
    rw [hc, round2_eq_self (0 + 4800 : ℚ) 4800 (by norm_num),
        round2_eq_self (0 + 5000 : ℚ) 5000 (by norm_num)]
    norm_num

/-- C6: break-even renders as the loss colour: when value equals spent the
delta cell is red, and the green branch is taken exactly when spent is
strictly less than value. -/
theorem break_even_renders_red :
    ∀ spent value : ℚ,
      (value = spent → (generate_toke_color spent value).color = "red") ∧
      ((generate_toke_color spent value).color = "green" ↔ spent < value) := by
  intro s v
  by_cases h : s < v
  · constructor
    · intro he
      rw [he] at h
      exact absurd h (lt_irrefl s)
    · simp [generate_toke_color, h]
  · constructor
    · intro _
      simp [generate_toke_color, h]
    · simp only [generate_toke_color, if_neg h]
      constructor
      · intro hc
        exact absurd hc (by decide)
      · intro hc
        exact absurd hc h

/-- C6 witness: spent 100 and value 100 render red. -/
theorem break_even_witness : (generate_toke_color 100 100).color = "red" :=
  (break_even_renders_red 100 100).1 rfl

/-- C7: the price snapshot maps each pair to the parsed price of the last
record bearing that pair, so the output depends on the input order only
through this last-occurrence rule. -/
theorem price_dict_last_write_wins :
    ∀ (price_list : List PriceQuote) (p : String),
      dictGet (convert_price_list_to_dict price_list) p =
        ((price_list.filter fun q => q.pair == p).getLast?).map PriceQuote.price := by
  intro l p
  rw [convert_price_list_to_dict, convert_go_char l [] p]
  by_cases hf : (l.filter fun q => q.pair == p) = []
  · rw [if_pos hf, hf]
    rfl
  · rw [if_neg hf]

/-- C8: a Buy order whose uppercased symbol contains GUSD is skipped
entirely: dropping all such orders does not change the run at all (so no
aggregate is created and no missing-price failure is triggered by them),
and no key of a successful holding summary contains GUSD. -/
theorem gusd_orders_skipped :
    ∀ (prices : List PriceQuote) (orders : List TradeOrder),
      get_crypto_holding_summary prices orders =
        get_crypto_holding_summary prices
          (orders.filter fun o => !strContains "GUSD" (pyUpper o.symbol)) ∧
      (∀ d, get_crypto_holding_summary prices orders = some d →
        ∀ kv ∈ d, strContains "GUSD" kv.1 = false) := by
  intro prices orders
  constructor
  · exact runOrders_filter_gusd (convert_price_list_to_dict prices) orders []
  · intro d h
    refine runOrders_key_invariant (convert_price_list_to_dict prices)
      (fun S => strContains "GUSD" S = false) orders [] d h ?_ ?_
    · intro kv hkv
      simp at hkv
    · intro o _ _ hg
      exact hg

/-- C8 witness: a Buy of the symbol GUSDUSD with an empty price feed. -/
theorem gusd_skipped_witness :
    get_crypto_holding_summary [] [⟨"Buy", "GUSDUSD", 1, 1⟩] =
      get_crypto_holding_summary []
        ([⟨"Buy", "GUSDUSD", 1, 1⟩].filter fun o => !strContains "GUSD" (pyUpper o.symbol)) ∧
    ∀ kv ∈ ([] : List (String × HoldingAggregate)), strContains "GUSD" kv.1 = false :=
  ⟨(gusd_orders_skipped [] [⟨"Buy", "GUSDUSD", 1, 1⟩]).1,
   (gusd_orders_skipped [] [⟨"Buy", "GUSDUSD", 1, 1⟩]).2 [] rfl⟩

/-- C9: the aggregation key is the uppercased order symbol: every key of a
successful holding summary is the uppercased symbol of some Buy order;
orders equal up to the case of their symbol are processed identically (so
two Buy orders whose symbols differ only in case accumulate into the same
aggregate); and the run reads the price lookup only at uppercased
symbols. -/
theorem aggregation_key_is_uppercased_symbol :
    ∀ (prices : List PriceQuote) (orders : List TradeOrder),
      (∀ d, get_crypto_holding_summary prices orders = some d →
        ∀ kv ∈ d, ∃ o ∈ orders, o.type = "Buy" ∧ kv.1 = pyUpper o.symbol) ∧
      (∀ orders', List.Forall₂ (fun o o1 : TradeOrder =>
          o.type = o1.type ∧ pyUpper o.symbol = pyUpper o1.symbol ∧
          o.amount = o1.amount ∧ o.price = o1.price) orders orders' →
        get_crypto_holding_summary prices orders = get_crypto_holding_summary prices orders') ∧
      (∀ prices' : List PriceQuote,
        (∀ o ∈ orders,
          dictGet (convert_price_list_to_dict prices) (pyUpper o.symbol) =
            dictGet (convert_price_list_to_dict prices') (pyUpper o.symbol)) →
        get_crypto_holding_summary prices orders = get_crypto_holding_summary prices' orders) := by
  intro prices orders
  refine ⟨?_, ?_, ?_⟩
  · intro d h
    refine runOrders_key_invariant (convert_price_list_to_dict prices)
      (fun S => ∃ o ∈ orders, o.type = "Buy" ∧ S = pyUpper o.symbol) orders [] d h ?_ ?_
    · intro kv hkv
      simp at hkv
    · intro o ho hb _
      exact ⟨o, ho, hb, rfl⟩
  · intro orders' hrel
    exact runOrders_congr_orders (convert_price_list_to_dict prices) orders orders' hrel []
  · intro prices' hagree
    exact runOrders_price_agree (convert_price_list_to_dict prices)
      (convert_price_list_to_dict prices') orders [] hagree

/-- C9 witness: a Buy of btcUsd keyed as BTCUSD, case-equivalent to a Buy
of BTCUSD, with a price feed extension that leaves the uppercased lookups
unchanged. -/
theorem aggregation_key_witness :
    (∀ kv ∈ [("BTCUSD", HoldingAggregate.mk (0 + 1) (0 + round2 (2 * 1)) ((0 + 1) * 5))],
      ∃ o ∈ [TradeOrder.mk "Buy" "btcUsd" 1 2], o.type = "Buy" ∧ kv.1 = pyUpper o.symbol) ∧
    get_crypto_holding_summary [⟨"BTCUSD", 5⟩] [⟨"Buy", "btcUsd", 1, 2⟩] =
      get_crypto_holding_summary [⟨"BTCUSD", 5⟩] [⟨"Buy", "BTCUSD", 1, 2⟩] ∧
    get_crypto_holding_summary [⟨"BTCUSD", 5⟩] [⟨"Buy", "btcUsd", 1, 2⟩] =
      get_crypto_holding_summary [⟨"BTCUSD", 5⟩, ⟨"XUSD", 7⟩] [⟨"Buy", "btcUsd", 1, 2⟩] :=
  ⟨(aggregation_key_is_uppercased_symbol [⟨"BTCUSD", 5⟩] [⟨"Buy", "btcUsd", 1, 2⟩]).1
      [("BTCUSD", ⟨0 + 1, 0 + round2 (2 * 1), (0 + 1) * 5⟩)] rfl,
   (aggregation_key_is_uppercased_symbol [⟨"BTCUSD", 5⟩] [⟨"Buy", "btcUsd", 1, 2⟩]).2.1
      [⟨"Buy", "BTCUSD", 1, 2⟩] (List.Forall₂.cons ⟨rfl, rfl, rfl, rfl⟩ List.Forall₂.nil),
   (aggregation_key_is_uppercased_symbol [⟨"BTCUSD", 5⟩] [⟨"Buy", "btcUsd", 1, 2⟩]).2.2
      [⟨"BTCUSD", 5⟩, ⟨"XUSD", 7⟩]
      (by intro o ho; rw [List.mem_singleton] at ho; subst ho; rfl)⟩

/-- C10: each row of the report is labelled with its key after removing
every occurrence of USD, for display only; for instance the key BTCUSD
renders as BTC whatever its aggregate holds, while the aggregation key in
the mapping is unchanged. -/
theorem row_label_strips_usd :
    ∀ summary : List (String × HoldingAggregate),
      ((generate_token_rows summary).rows.map TokenRow.label =
        summary.map fun kv => pyReplace kv.1 "USD" "") ∧
      ∀ agg : HoldingAggregate,
        (generate_token_rows [("BTCUSD", agg)]).rows.map TokenRow.label = ["BTC"] := by
  intro summary
  constructor
  · simp only [generate_token_rows]
    rw [foldl_tokenRowStep_rows summary ([], 0, 0)]
    simp [List.map_map]
  · intro agg
    rfl

end GeminiStats
